import Mathlib

/-!
Verification of the dnslib label codec (`src/dnslib/label.py`, `src/dnslib/bit.py`).

Bytes are modelled as `Nat` (values 0..255 in practice), byte strings as
`List Nat`, and label sequences as `List (List Nat)`.  The `Buffer` base
class (`dnslib/buffer.py`) is not part of the sources, so its primitives are
modelled from the specification (§4.2): reads are bounds-checked and fail
with a buffer error, writes extend the buffer when the cursor sits at its
end and overwrite in place otherwise.  Fallible operations return
`Except DNSError`; the recursive name decoder is fuel-indexed, `none`
meaning the fuel ran out.
-/

/-- `get_bits` from `src/dnslib/bit.py`: extract `bits` bits of `data`
starting at bit `offset`. -/
def get_bits (data offset bits : Nat) : Nat :=
  let mask := ((1 <<< bits) - 1) <<< offset
  (data &&& mask) >>> offset

/-- `set_bits` from `src/dnslib/bit.py`: `mask = ((1 << bits) - 1) << offset`,
`clear = 0xFFFF ^ mask`, result `(data & clear) | ((value << offset) & mask)`. -/
def set_bits (data value offset bits : Nat) : Nat :=
  let mask := ((1 <<< bits) - 1) <<< offset
  let clear := 0xFFFF ^^^ mask
  (data &&& clear) ||| ((value <<< offset) &&& mask)

/-- A UTF-8 continuation byte (`0x80..0xBF`). -/
def utf8Cont (b : Nat) : Bool :=
  decide (0x80 ≤ b) && decide (b ≤ 0xBF)

/-- Validity of a byte sequence under strict UTF-8 decoding (RFC 3629:
no overlong forms, no surrogates, maximum U+10FFFF).  This models the
`l.decode()` call in `DNSBuffer.decode_name`, whose failure is turned
into a buffer error. -/
def utf8Valid : List Nat → Bool
  | [] => true
  | b :: rest =>
    if b < 0x80 then utf8Valid rest
    else
      match rest with
      | [] => false
      | c1 :: r1 =>
        if decide (0xC2 ≤ b) && decide (b ≤ 0xDF) then utf8Cont c1 && utf8Valid r1
        else
          match r1 with
          | [] => false
          | c2 :: r2 =>
            if b = 0xE0 then
              decide (0xA0 ≤ c1) && decide (c1 ≤ 0xBF) && utf8Cont c2 && utf8Valid r2
            else if (decide (0xE1 ≤ b) && decide (b ≤ 0xEC)) || b = 0xEE || b = 0xEF then
              utf8Cont c1 && utf8Cont c2 && utf8Valid r2
            else if b = 0xED then
              decide (0x80 ≤ c1) && decide (c1 ≤ 0x9F) && utf8Cont c2 && utf8Valid r2
            else
              match r2 with
              | [] => false
              | c3 :: r3 =>
                if b = 0xF0 then
                  decide (0x90 ≤ c1) && decide (c1 ≤ 0xBF) && utf8Cont c2 && utf8Cont c3
                    && utf8Valid r3
                else if decide (0xF1 ≤ b) && decide (b ≤ 0xF3) then
                  utf8Cont c1 && utf8Cont c2 && utf8Cont c3 && utf8Valid r3
                else if b = 0xF4 then
                  decide (0x80 ≤ c1) && decide (c1 ≤ 0x8F) && utf8Cont c2 && utf8Cont c3
                    && utf8Valid r3
                else false

instance {ε α : Type} [DecidableEq ε] [DecidableEq α] : DecidableEq (Except ε α) := fun x y =>
  match x, y with
  | .error a, .error b =>
    if h : a = b then isTrue (by rw [h]) else isFalse (by intro hh; cases hh; exact h rfl)
  | .ok a, .ok b =>
    if h : a = b then isTrue (by rw [h]) else isFalse (by intro hh; cases hh; exact h rfl)
  | .error _, .ok _ => isFalse (by intro hh; cases hh)
  | .ok _, .error _ => isFalse (by intro hh; cases hh)

/-- The stored state of a `DNSLabel`: the tuple of byte-string labels. -/
structure DNSLabel where
  label : List (List Nat)
deriving DecidableEq, Repr

/-- `DNSLabel.__init__` on a list/tuple argument: `self.label = tuple(label)`,
the components are stored verbatim. -/
def dnsLabelOfList (ls : List (List Nat)) : DNSLabel :=
  ⟨ls⟩

/-- Python `bytes.rstrip(b".")` helper: drop a leading run of dots. -/
def dropWhileDot : List Nat → List Nat
  | [] => []
  | b :: rest => if b = 46 then dropWhileDot rest else b :: rest

/-- Python `bytes.rstrip(b".")`: remove every trailing `.` (byte 46). -/
def rstripDot (bs : List Nat) : List Nat :=
  (dropWhileDot bs.reverse).reverse

/-- Python `bytes.split(b".")`: split on every dot, keeping empty pieces;
the split of the empty string is `[b""]`. -/
def splitDot : List Nat → List (List Nat)
  | [] => [[]]
  | b :: rest =>
    if b = 46 then [] :: splitDot rest
    else
      match splitDot rest with
      | t :: ts => (b :: t) :: ts
      | [] => [[b]]

/-- `DNSLabel.__init__` on a byte-string argument: empty or `b"."` give the
root; otherwise `tuple(label.rstrip(b".").split(b"."))`. -/
def dnsLabelOfBytes (bs : List Nat) : DNSLabel :=
  if bs = [] ∨ bs = [46] then ⟨[]⟩
  else ⟨splitDot (rstripDot bs)⟩

/-- `DNSLabel.__len__`: `len(b".".join(self.label))`, i.e. the sum of the
label lengths plus one separating dot between adjacent labels. -/
def dnsLen (ls : List (List Nat)) : Nat :=
  (ls.map List.length).sum + ls.length - 1

/-- Python `bytes.lower` on one byte: ASCII `A`–`Z` map to `a`–`z`. -/
def lowerByte (b : Nat) : Nat :=
  if 65 ≤ b ∧ b ≤ 90 then b + 32 else b

/-- Lower-case every byte of every label (`[l.lower() for l in self.label]`). -/
def lowerLabels (ls : List (List Nat)) : List (List Nat) :=
  ls.map (List.map lowerByte)

/-- `DNSLabel.__eq__` on two labels: compare the ASCII-lowered label lists. -/
def dnsLabelEq (a b : DNSLabel) : Bool :=
  lowerLabels a.label == lowerLabels b.label

/-- `DNSLabel.__hash__` hashes `tuple(map(lambda x: x.lower(), self.label))`;
this is the tuple handed to Python's `hash`, so equal keys give equal hashes. -/
def dnsHashKey (a : DNSLabel) : List (List Nat) :=
  lowerLabels a.label

/-- Errors of the codec.  The first four model `BufferError`
(spec §7: reads past the end, invalid/recursive pointers, non-decodable
label bytes); the last two model `DNSLabelError`. -/
inductive DNSError where
  | bufferShort
  | invalidPointer
  | recursivePointer
  | invalidLabelBytes
  | labelTooLong
  | nameTooLong
deriving DecidableEq, Repr

/-- Which errors are `BufferError`s (spec §7). -/
def DNSError.isBufferError : DNSError → Bool
  | .bufferShort => true
  | .invalidPointer => true
  | .recursivePointer => true
  | .invalidLabelBytes => true
  | .labelTooLong => false
  | .nameTooLong => false

/-- `DNSBuffer` state: buffer bytes, cursor, and the compression table
`names` (a dict from label tuples to offsets, modelled as an association
list whose most recent binding comes first). -/
structure DNSBuffer where
  data : List Nat
  offset : Nat
  names : List (List (List Nat) × Nat)
deriving DecidableEq, Repr

/-- Modelled from the spec: `Buffer.unpack_one("!B")` of §4.2 reads the byte
at the cursor; an out-of-range read is a buffer error (`none` here). -/
def readByte (data : List Nat) (off : Nat) : Option Nat :=
  data[off]?

/-- Modelled from the spec: `Buffer.unpack_one("!H")` of §4.2 reads a
big-endian u16 at the cursor; an out-of-range read is a buffer error. -/
def readU16 (data : List Nat) (off : Nat) : Option Nat :=
  match data[off]?, data[off + 1]? with
  | some a, some b => some (a * 256 + b)
  | _, _ => none

/-- Modelled from the spec: `Buffer.get(n)` of §4.2 reads `n` raw bytes at
the cursor; an out-of-range read is a buffer error. -/
def readBytes (data : List Nat) (off n : Nat) : Option (List Nat) :=
  if off + n ≤ data.length then some ((data.drop off).take n) else none

/-- Modelled from the spec: `Buffer.append` of §4.2 writes at the cursor,
extending the buffer when the cursor equals its end and overwriting in
place otherwise. -/
def writeBytes (data : List Nat) (off : Nat) (bs : List Nat) : List Nat :=
  if off = data.length then data ++ bs
  else data.take off ++ bs ++ data.drop (off + bs.length)

/-- `Buffer.pack("!H", v)`: append the two big-endian bytes of `v` at the
cursor and advance it. -/
def packU16 (st : DNSBuffer) (v : Nat) : DNSBuffer :=
  { st with
    data := writeBytes st.data st.offset [v >>> 8 % 256, v % 256]
    offset := st.offset + 2 }

/-- `Buffer.append_with_length("!B", l)`: one length byte then the bytes.
Its callers in `label.py` have already checked `l.length ≤ 63`, so the
length always fits the u8 prefix. -/
def appendWithLength (st : DNSBuffer) (l : List Nat) : DNSBuffer :=
  { st with
    data := writeBytes st.data st.offset (l.length :: l)
    offset := st.offset + 1 + l.length }

/-- `Buffer.append` of raw bytes, advancing the cursor. -/
def appendRaw (st : DNSBuffer) (bs : List Nat) : DNSBuffer :=
  { st with
    data := writeBytes st.data st.offset bs
    offset := st.offset + bs.length }

/-- Python dict membership/lookup `self.names[tuple(name)]`. -/
def lookupName (names : List (List (List Nat) × Nat)) (k : List (List Nat)) : Option Nat :=
  match names with
  | [] => none
  | (k0, v) :: rest => if k0 = k then some v else lookupName rest k

/-- A failed read is a `BufferError`; a successful one feeds the
continuation.  This models the exception flow of `unpack_one`/`get`. -/
def withRead {α : Type} (r : Option α)
    (k : α → Option (Except DNSError (List (List Nat) × Nat))) :
    Option (Except DNSError (List (List Nat) × Nat)) :=
  match r with
  | none => some (Except.error DNSError.bufferShort)
  | some x => k x

/-- `DNSBuffer.decode_name` (`label.py` lines 248–286), fuel-indexed.
Arguments: buffer bytes, current offset, the `last` parameter (`none`
models the `-1` default), the accumulated label list, fuel.  One unit of
fuel is spent per loop iteration or recursive descent; `none` means the
fuel ran out.  On success it returns the decoded labels and the final
cursor.  The pointer branch rewinds one byte, reads a u16, masks the low
14 bits, rejects `last == save` and `pointer ≥ save`, recurses with
`last := save`, extends the labels, and restores the cursor to `save`. -/
def decodeName (data : List Nat) :
    Nat → Option Nat → List (List Nat) → Nat →
    Option (Except DNSError (List (List Nat) × Nat))
  | _, _, _, 0 => none
  | off, last, acc, fuel + 1 =>
    withRead (readByte data off) fun length =>
      if get_bits length 6 2 = 3 then
        withRead (readU16 data off) fun w =>
          let pointer := get_bits w 0 14
          let save := off + 2
          if last = some save then some (Except.error DNSError.recursivePointer)
          else if pointer < save then
            (decodeName data pointer (some save) [] fuel).bind fun r =>
              some (r.map fun x => (acc ++ x.1, save))
          else some (Except.error DNSError.invalidPointer)
      else
        if 0 < length then
          withRead (readBytes data (off + 1) length) fun l =>
            if utf8Valid l then decodeName data (off + 1 + length) last (acc ++ [l]) fuel
            else some (Except.error DNSError.invalidLabelBytes)
        else some (Except.ok (acc, off + 1))

/-- `DNSBuffer.decode_name` entry point: `last = -1`, empty label list;
the result is wrapped in a `DNSLabel`. -/
def decode_name (data : List Nat) (off : Nat) (fuel : Nat) :
    Option (Except DNSError DNSLabel) :=
  (decodeName data off none [] fuel).bind fun r =>
    some (r.map fun x => DNSLabel.mk x.1)

/-- The `while name:` loop of `DNSBuffer.encode_name`: a cached suffix emits
a compression pointer and stops; otherwise the suffix is recorded at the
current cursor, the head label is length-checked and emitted, and the loop
continues with the tail.  The empty suffix appends the terminating zero. -/
def encodeLoop : DNSBuffer → List (List Nat) → Except DNSError DNSBuffer
  | st, [] => Except.ok (appendRaw st [0])
  | st, l :: rest =>
    match lookupName st.names (l :: rest) with
    | some pointer => Except.ok (packU16 st (set_bits pointer 3 14 2))
    | none =>
      let st1 : DNSBuffer := { st with names := (l :: rest, st.offset) :: st.names }
      if l.length > 63 then Except.error DNSError.labelTooLong
      else encodeLoop (appendWithLength st1 l) rest

/-- `DNSBuffer.encode_name` (`label.py` lines 288–312): reject names longer
than 253, then run the compression loop. -/
def encode_name (st : DNSBuffer) (name : DNSLabel) : Except DNSError DNSBuffer :=
  if dnsLen name.label > 253 then Except.error DNSError.nameTooLong
  else encodeLoop st name.label

/-- The `for element in name.label:` loop of `encode_name_nocompress`. -/
def encodeNocompressLoop : DNSBuffer → List (List Nat) → Except DNSError DNSBuffer
  | st, [] => Except.ok (appendRaw st [0])
  | st, l :: rest =>
    if l.length > 63 then Except.error DNSError.labelTooLong
    else encodeNocompressLoop (appendWithLength st l) rest

/-- `DNSBuffer.encode_name_nocompress` (`label.py` lines 314–328). -/
def encode_name_nocompress (st : DNSBuffer) (name : DNSLabel) : Except DNSError DNSBuffer :=
  if dnsLen name.label > 253 then Except.error DNSError.nameTooLong
  else encodeNocompressLoop st name.label

/-- The uncompressed wire encoding of a label list: one length prefix per
label, each label's bytes following its prefix. -/
def encChain (ls : List (List Nat)) : List Nat :=
  (ls.map fun l => l.length :: l).flatten

/-- A five-byte buffer on which `decode_name` starting at offset 3 never
terminates.  Offset 3 holds a pointer to 0; offset 0 holds a pointer to 1
(its own second byte, value `0xC001 & 0x3FFF = 1 < save = 2`); offset 1 is
the length byte of the one-byte label `a`; the cursor then lands back on
the pointer at offset 3.  The `last` guard only remembers the immediately
enclosing `save`, so the alternating saves 5, 2, 5, 2, … never match. -/
def loopData : List Nat := [192, 1, 97, 192, 0]

/-- Unfolding three fuel steps of the decode cycle: from the state
(offset 0, `last` = 5) the interpreter passes through (offset 1, `last` = 2)
and (offset 3, `last` = 2) and returns to (offset 0, `last` = 5). -/
theorem loopA_unfold (f : Nat) :
    decodeName loopData 0 (some 5) [] (f + 3)
      = ((decodeName loopData 0 (some 5) [] f).bind (fun r =>
          some (r.map fun x => ([[97]] ++ x.1, 5)))).bind (fun r =>
          some (r.map fun x => ([] ++ x.1, 2))) := rfl

/-- On `loopData` the state (offset 0, `last` = 5) exhausts any amount of
fuel: the decode loop visits it again every three steps. -/
theorem loopA_none : ∀ f, decodeName loopData 0 (some 5) [] f = none := by
  intro f
  induction f using Nat.strong_induction_on with
  | _ f ih =>
    match f with
    | 0 => rfl
    | 1 => rfl
    | 2 => rfl
    | g + 3 => rw [loopA_unfold, ih g (by omega)]; rfl

/-- C1: the claim says `decode_name` always raises a buffer error after
finitely many steps on any self- or re-entrant pointer chain.  The code
violates this: on the five-byte buffer `loopData`, decoding at offset 3
exhausts every amount of fuel — the `last` guard only remembers the
immediately enclosing saved offset, so the three-state pointer cycle
(offset 0 / last 5 → offset 1 / last 2 → offset 3 / last 2 → offset 0 /
last 5) recurs forever and neither an error nor a result is produced. -/
theorem c1_decode_name_pointer_cycle_diverges :
    ∀ fuel, decode_name loopData 3 fuel = none := by
  intro fuel
  match fuel with
  | 0 => rfl
  | f + 1 =>
    have h : decode_name loopData 3 (f + 1)
        = ((decodeName loopData 0 (some 5) [] f).bind (fun r =>
            some (r.map fun x => ([] ++ x.1, 5)))).bind (fun r =>
            some (r.map fun x => DNSLabel.mk x.1)) := rfl
    rw [h, loopA_none]; rfl

set_option maxRecDepth 40000 in
/-- C2 counterexample: the length byte 65 (`0x41`, high two bits `01`) is
claimed to raise a parse error, but `decode_name` treats it as a plain
label length and successfully decodes a 65-byte label. -/
theorem c2_counterexample_reserved_bits_accepted :
    decode_name ([65] ++ List.replicate 65 97 ++ [0]) 0 3
      = some (Except.ok ⟨[List.replicate 65 97]⟩) := by decide

set_option maxRecDepth 100000 in
/-- C2 amended: `decode_name` never checks for the reserved high-bit
patterns `01` and `10`; every length byte 64..191 is treated as an
ordinary label length, and when that many decodable bytes follow, the
label is read without any error. -/
theorem c2_reserved_bits_read_as_length :
    ∀ b : Nat, b < 192 → 64 ≤ b →
      decode_name ([b] ++ List.replicate b 97 ++ [0]) 0 3
        = some (Except.ok ⟨[List.replicate b 97]⟩) := by decide

set_option maxRecDepth 40000 in
/-- C2 witness: the amended theorem applied at the reserved byte 130
(high bits `10`). -/
theorem c2_reserved_bits_read_as_length_witness :
    decode_name ([130] ++ List.replicate 130 97 ++ [0]) 0 3
      = some (Except.ok ⟨[List.replicate 130 97]⟩) :=
  c2_reserved_bits_read_as_length 130 (by decide) (by decide)

theorem lookupName_none_of_length_lt (names : List (List (List Nat) × Nat))
    (k : List (List Nat)) (h : ∀ p ∈ names, k.length < p.1.length) :
    lookupName names k = none := by
  induction names with
  | nil => rfl
  | cons p rest ih =>
    obtain ⟨k0, v⟩ := p
    have hp := h (k0, v) (by simp)
    have hne : k0 ≠ k := by
      intro e
      rw [e] at hp
      simp at hp
    simp only [lookupName, if_neg hne]
    exact ih fun q hq => h q (by simp [hq])

/-- If some label exceeds 63 bytes and every key already in the table is
longer than the remaining suffix (so lookups always miss), the encode loop
raises the label-length error. -/
theorem encodeLoop_error_of_long_label :
    ∀ (ls : List (List Nat)) (st : DNSBuffer),
      (∀ p ∈ st.names, ls.length < p.1.length) →
      (∃ l ∈ ls, 63 < l.length) →
      encodeLoop st ls = Except.error DNSError.labelTooLong := by
  intro ls
  induction ls with
  | nil =>
    intro st _ hbad
    simp at hbad
  | cons l rest ih =>
    intro st hinv hbad
    have hlk : lookupName st.names (l :: rest) = none :=
      lookupName_none_of_length_lt _ _ hinv
    by_cases hl : 63 < l.length
    · simp only [encodeLoop, hlk, if_pos hl]
    · have hbad' : ∃ x ∈ rest, 63 < x.length := by
        rcases hbad with ⟨x, hx, hxlen⟩
        rcases List.mem_cons.mp hx with h | h
        · exact absurd (h ▸ hxlen) hl
        · exact ⟨x, h, hxlen⟩
      simp only [encodeLoop, hlk, if_neg hl]
      apply ih
      · intro p hp
        simp only [appendWithLength] at hp
        rcases List.mem_cons.mp hp with h | h
        · rw [h]
          simp
        · have := hinv p h
          simp only [List.length_cons] at this ⊢
          omega
      · exact hbad'

/-- C3 counterexample: constructing a `DNSLabel` from a single 300-byte
label component (total length 300 > 253, label length 300 > 63) does not
fail: the constructor performs no length validation and stores the
component verbatim. -/
theorem c3_counterexample_constructor_unchecked :
    (dnsLabelOfList [List.replicate 300 97]).label = [List.replicate 300 97] := rfl

/-- C3 amended: the length bounds are not enforced at construction time but
at encode time: on a buffer with an empty compression table, `encode_name`
fails with a `DNSLabelError` (name-too-long or label-too-long) for every
name whose total encoded length exceeds 253 or that contains a label
longer than 63 bytes. -/
theorem c3_length_bounds_checked_at_encode_time :
    ∀ (st : DNSBuffer) (name : DNSLabel), st.names = [] →
      (253 < dnsLen name.label ∨ ∃ l ∈ name.label, 63 < l.length) →
      encode_name st name = Except.error DNSError.nameTooLong ∨
        encode_name st name = Except.error DNSError.labelTooLong := by
  intro st name hnames h
  by_cases h253 : 253 < dnsLen name.label
  · left
    simp only [encode_name, gt_iff_lt, if_pos h253]
  · right
    rcases h with h | hbad
    · exact absurd h h253
    · simp only [encode_name, gt_iff_lt, if_neg h253]
      exact encodeLoop_error_of_long_label _ _ (by rw [hnames]; simp) hbad

/-- C3 witness: the amended theorem applied to a fresh buffer and the name
with the single 64-byte label. -/
theorem c3_length_bounds_checked_at_encode_time_witness :
    encode_name ⟨[], 0, []⟩ (dnsLabelOfList [List.replicate 64 97])
        = Except.error DNSError.nameTooLong ∨
      encode_name ⟨[], 0, []⟩ (dnsLabelOfList [List.replicate 64 97])
        = Except.error DNSError.labelTooLong :=
  c3_length_bounds_checked_at_encode_time ⟨[], 0, []⟩ _ rfl (Or.inr (by decide))

theorem dropWhileDot_nil_or_head_ne :
    ∀ xs : List Nat, dropWhileDot xs = [] ∨
      ∃ b t, dropWhileDot xs = b :: t ∧ b ≠ 46 := by
  intro xs
  induction xs with
  | nil => exact Or.inl rfl
  | cons b rest ih =>
    by_cases hb : b = 46
    · simpa [dropWhileDot, hb] using ih
    · exact Or.inr ⟨b, rest, by simp [dropWhileDot, hb], hb⟩

theorem rstripDot_nil_or_concat :
    ∀ bs : List Nat, rstripDot bs = [] ∨
      ∃ ys b, rstripDot bs = ys ++ [b] ∧ b ≠ 46 := by
  intro bs
  rcases dropWhileDot_nil_or_head_ne bs.reverse with h | ⟨b, t, h, hb⟩
  · left
    simp [rstripDot, h]
  · right
    exact ⟨t.reverse, b, by simp [rstripDot, h], hb⟩

theorem splitDot_ne_nil : ∀ xs : List Nat, splitDot xs ≠ [] := by
  intro xs
  match xs with
  | [] => simp [splitDot]
  | b :: rest =>
    by_cases hb : b = 46
    · simp [splitDot, hb]
    · simp only [splitDot, if_neg hb]
      rcases h : splitDot rest with _ | ⟨t, ts⟩
      · simp
      · simp

theorem splitDot_concat_getLast_ne_nil :
    ∀ (ys : List Nat) (b : Nat), b ≠ 46 →
      (splitDot (ys ++ [b])).getLast? ≠ some [] := by
  intro ys
  induction ys with
  | nil =>
    intro b hb
    simp [splitDot, hb]
  | cons y ys' ih =>
    intro b hb
    by_cases hy : y = 46
    · simp only [List.cons_append, splitDot, if_pos hy]
      rcases h : splitDot (ys' ++ [b]) with _ | ⟨t, ts⟩
      · exact absurd h (splitDot_ne_nil _)
      · rw [List.getLast?_cons_cons]
        have hih := ih b hb
        rw [h] at hih
        exact hih
    · simp only [List.cons_append, splitDot, if_neg hy]
      rcases h : splitDot (ys' ++ [b]) with _ | ⟨t, ts⟩
      · exact absurd h (splitDot_ne_nil _)
      · rcases ts with _ | ⟨u, ts'⟩
        · simp
        · rw [List.getLast?_cons_cons]
          have := ih b hb
          rw [h, List.getLast?_cons_cons] at this
          exact this

/-- C4 counterexample: the list/tuple constructor stores the given labels
verbatim, so `DNSLabel([b"a", b""])` keeps a trailing empty label,
refuting the claimed invariant. -/
theorem c4_counterexample_trailing_empty_stored :
    (dnsLabelOfList [[97], []]).label.getLast? = some [] := rfl

/-- C4 amended: the byte-string constructor strips trailing dots, so its
result has no trailing empty label whenever the dot-stripped input is
nonempty; empty, `b"."`, and empty-list inputs give the root, stored as
the label sequence of length 0.  The list/tuple constructor, by contrast,
stores its argument verbatim and can keep trailing empty labels. -/
theorem c4_no_trailing_empty_from_bytes :
    (∀ bs : List Nat, rstripDot bs ≠ [] →
        (dnsLabelOfBytes bs).label.getLast? ≠ some []) ∧
      (dnsLabelOfBytes []).label = [] ∧
      (dnsLabelOfBytes [46]).label = [] ∧
      (dnsLabelOfList []).label = [] := by
  refine ⟨?_, rfl, rfl, rfl⟩
  intro bs hbs
  have hne : ¬(bs = [] ∨ bs = [46]) := by
    rintro (h | h) <;> rw [h] at hbs <;> exact hbs rfl
  simp only [dnsLabelOfBytes, if_neg hne]
  rcases rstripDot_nil_or_concat bs with h | ⟨ys, b, h, hb⟩
  · exact absurd h hbs
  · rw [h]
    exact splitDot_concat_getLast_ne_nil ys b hb

/-- C4 witness: the amended theorem applied to the byte string `b"a.b.."`
(two trailing dots), whose stored labels end in `b"b"`, not an empty label. -/
theorem c4_no_trailing_empty_from_bytes_witness :
    (dnsLabelOfBytes [97, 46, 98, 46, 46]).label.getLast? ≠ some [] :=
  c4_no_trailing_empty_from_bytes.1 [97, 46, 98, 46, 46] (by decide)

/-- C5 counterexample: `set_bits` masks `data` with `0xFFFF ^ mask`, so bit
16 of `data = 65536`, though outside the destination field `[0, 1)`, is
cleared rather than preserved — refuting the claim for data wider than
16 bits. -/
theorem c5_counterexample_high_bits_cleared :
    Nat.testBit (set_bits 65536 0 0 1) 16 ≠ Nat.testBit 65536 16 ∧
      ¬(0 ≤ 16 ∧ 16 < 0 + 1) := by decide

/-- C5 amended: for every `data < 2^16` (the intended u16 use) and all
`value`, `offset`, `width`, the bits of `set_bits data value offset width`
inside `[offset, offset+width)` equal the low `width` bits of `value` and
the bits outside equal those of `data`. -/
theorem c5_set_bits_field_semantics :
    ∀ data value offset width i : Nat, data < 65536 →
      Nat.testBit (set_bits data value offset width) i
        = if offset ≤ i ∧ i < offset + width then Nat.testBit value (i - offset)
          else Nat.testBit data i := by
  intro data value offset width i hdata
  have h16 : (65535 : Nat) = 2 ^ 16 - 1 := by norm_num
  have hhigh : ∀ j : Nat, 16 ≤ j → data.testBit j = false := by
    intro j hj
    exact Nat.testBit_lt_two_pow
      (lt_of_lt_of_le hdata (Nat.pow_le_pow_right (show 0 < 2 by norm_num) hj))
  simp only [set_bits, Nat.testBit_or, Nat.testBit_and, Nat.testBit_xor,
    Nat.testBit_shiftLeft, Nat.one_shiftLeft, Nat.testBit_two_pow_sub_one, h16,
    ge_iff_le]
  by_cases h1 : offset ≤ i
  · by_cases h2 : i < offset + width
    · have hio : i - offset < width := by omega
      by_cases h3 : i < 16
      · simp [h1, h2, h3, hio]
      · simp [h1, h2, h3, hio, hhigh i (by omega)]
    · have hio : ¬(i - offset < width) := by omega
      by_cases h3 : i < 16
      · simp [h1, h2, h3, hio]
      · simp [h1, h2, h3, hio, hhigh i (by omega)]
  · by_cases h3 : i < 16
    · simp [h1, h3]
    · simp [h1, h3, hhigh i (by omega)]

/-- C5 witness: the amended theorem at `data = 40000`, `value = 5`,
`offset = 3`, `width = 4`, bit 5 (inside the field). -/
theorem c5_set_bits_field_semantics_witness :
    Nat.testBit (set_bits 40000 5 3 4) 5
      = if 3 ≤ 5 ∧ 5 < 3 + 4 then Nat.testBit 5 (5 - 3) else Nat.testBit 40000 5 :=
  c5_set_bits_field_semantics 40000 5 3 4 5 (by decide)

/-- C6 counterexample: in the buffer `c0 01 61 00` the pointer at offset 0
has 14-bit value 1 — it targets its own second byte, i.e. it is not
strictly before itself — yet `decode_name` follows it and succeeds,
refuting the claim that no forward or self pointer is ever followed.  The
code only requires `pointer < save` where `save = offset-of-pointer + 2`,
so the targets `o` and `o + 1` inside the pointer's own bytes pass. -/
theorem c6_counterexample_self_pointer_followed :
    decode_name [192, 1, 97, 0] 0 5 = some (Except.ok ⟨[[97]]⟩) := by decide

/-- C6 amended: a compression pointer raises a buffer error exactly when
its 14-bit value is ≥ the cursor placed after the pointer's two bytes
(`save = off + 2`): the recursive-pointer guard fires when `last = save`,
the invalid-pointer branch otherwise; both are buffer errors.  Values
`off` and `off + 1` pass the check and are followed. -/
theorem c6_pointer_ge_save_is_buffer_error :
    ∀ (data : List Nat) (off : Nat) (last : Option Nat) (acc : List (List Nat))
      (f b w : Nat),
      readByte data off = some b → get_bits b 6 2 = 3 →
      readU16 data off = some w → off + 2 ≤ get_bits w 0 14 →
      decodeName data off last acc (f + 1)
          = some (Except.error DNSError.recursivePointer) ∨
        decodeName data off last acc (f + 1)
          = some (Except.error DNSError.invalidPointer) := by
  intro data off last acc f b w hb h3 hw hge
  have hnlt : ¬(get_bits w 0 14 < off + 2) := by omega
  by_cases hl : last = some (off + 2)
  · left
    simp [decodeName, withRead, hb, h3, hw, if_pos hl]
  · right
    simp [decodeName, withRead, hb, h3, hw, if_neg hl, if_neg hnlt]

/-- C6 witness: the amended theorem applied to the two-byte buffer
`c0 c0`, whose pointer value 192 is ≥ 2. -/
theorem c6_pointer_ge_save_is_buffer_error_witness :
    decodeName [192, 192] 0 none [] 1
        = some (Except.error DNSError.recursivePointer) ∨
      decodeName [192, 192] 0 none [] 1
        = some (Except.error DNSError.invalidPointer) :=
  c6_pointer_ge_save_is_buffer_error [192, 192] 0 none [] 0 192 49344
    (by decide) (by decide) (by decide) (by decide)

/-- C7: `DNSLabel` equality is case-insensitive over ASCII and hashing is
consistent with it: two labels compare equal exactly when their
ASCII-lowered label sequences agree, and equal labels have equal hash
keys (the lowered tuple is what `__hash__` feeds to Python's `hash`). -/
theorem c7_eq_case_insensitive_hash_consistent :
    ∀ a b : DNSLabel,
      (dnsLabelEq a b = true ↔ lowerLabels a.label = lowerLabels b.label) ∧
      (dnsLabelEq a b = true → dnsHashKey a = dnsHashKey b) := by
  intro a b
  constructor
  · simp [dnsLabelEq]
  · intro h
    simp only [dnsLabelEq, beq_iff_eq] at h
    simpa [dnsHashKey] using h

/-- C7 witness: `DNSLabel(b"Foo.Com")` and `DNSLabel(b"foo.com")` compare
equal and have equal hash keys. -/
theorem c7_eq_case_insensitive_hash_consistent_witness :
    dnsLabelEq (dnsLabelOfBytes [70, 111, 111, 46, 67, 111, 109])
        (dnsLabelOfBytes [102, 111, 111, 46, 99, 111, 109]) = true ∧
      dnsHashKey (dnsLabelOfBytes [70, 111, 111, 46, 67, 111, 109])
        = dnsHashKey (dnsLabelOfBytes [102, 111, 111, 46, 99, 111, 109]) := by
  have h := c7_eq_case_insensitive_hash_consistent
    (dnsLabelOfBytes [70, 111, 111, 46, 67, 111, 109])
    (dnsLabelOfBytes [102, 111, 111, 46, 99, 111, 109])
  exact ⟨h.1.mpr (by decide), h.2 (h.1.mpr (by decide))⟩

theorem get_bits_lt_64 : ∀ n : Nat, n < 64 → get_bits n 6 2 = 0 := by decide

theorem encChain_nil : encChain [] = [] := rfl

theorem encChain_cons (l : List Nat) (rest : List (List Nat)) :
    encChain (l :: rest) = (l.length :: l) ++ encChain rest := by
  simp [encChain]

theorem getElem?_at_append (pre : List Nat) (b : Nat) (rest : List Nat) :
    (pre ++ b :: rest)[pre.length]? = some b := by
  rw [List.getElem?_append_right (le_refl _)]
  simp

theorem readBytes_append (A B C : List Nat) :
    readBytes (A ++ (B ++ C)) A.length B.length = some B := by
  unfold readBytes
  rw [if_pos]
  · rw [List.drop_left, List.take_left]
  · simp [List.length_append]

/-- One decode-loop iteration over a plain label: read the length byte,
read and validate the label bytes, continue past them. -/
theorem decodeName_label_step (data : List Nat) (off : Nat) (last : Option Nat)
    (acc : List (List Nat)) (f b : Nat) (l : List Nat)
    (hb : readByte data off = some b) (h3 : ¬(get_bits b 6 2 = 3)) (hpos : 0 < b)
    (hread : readBytes data (off + 1) b = some l) (hutf : utf8Valid l = true) :
    decodeName data off last acc (f + 1)
      = decodeName data (off + 1 + b) last (acc ++ [l]) f := by
  simp only [decodeName]
  rw [hb]
  simp only [withRead]
  rw [if_neg h3, if_pos hpos, hread]
  simp only [withRead]
  rw [if_pos hutf]

/-- The terminating zero byte ends the decode loop. -/
theorem decodeName_zero_step (data : List Nat) (off : Nat) (last : Option Nat)
    (acc : List (List Nat)) (f : Nat) (hb : readByte data off = some 0) :
    decodeName data off last acc (f + 1) = some (Except.ok (acc, off + 1)) := by
  simp only [decodeName]
  rw [hb]
  simp only [withRead]
  rw [if_neg (show ¬(get_bits 0 6 2 = 3) by decide),
    if_neg (show ¬((0 : Nat) < 0) by decide)]

/-- Decoding the plain (uncompressed) encoding of a label list embedded at
offset `pre.length` of a larger buffer yields exactly those labels, for
any labels of 1..63 decodable bytes. -/
theorem decodeName_plain :
    ∀ (ls : List (List Nat)) (pre suf : List Nat) (last : Option Nat)
      (acc : List (List Nat)) (k : Nat),
      (∀ l ∈ ls, 1 ≤ l.length ∧ l.length ≤ 63 ∧ utf8Valid l = true) →
      decodeName (pre ++ encChain ls ++ [0] ++ suf) pre.length last acc
          (k + ls.length + 1)
        = some (Except.ok (acc ++ ls, pre.length + (encChain ls).length + 1)) := by
  intro ls
  induction ls with
  | nil =>
    intro pre suf last acc k _
    have hdata : pre ++ encChain [] ++ [0] ++ suf = pre ++ 0 :: suf := by
      simp [encChain_nil]
    rw [hdata]
    have hb0 : readByte (pre ++ 0 :: suf) pre.length = some 0 :=
      getElem?_at_append _ _ _
    simp only [List.length_nil, Nat.add_zero]
    rw [decodeName_zero_step _ _ _ _ k hb0]
    simp [encChain_nil]
  | cons l rest ih =>
    intro pre suf last acc k hls
    obtain ⟨hl1, hl63, hlutf⟩ := hls l (by simp)
    have hdata : pre ++ encChain (l :: rest) ++ [0] ++ suf
        = pre ++ l.length :: (l ++ (encChain rest ++ [0] ++ suf)) := by
      rw [encChain_cons]
      simp
    have hb : readByte (pre ++ encChain (l :: rest) ++ [0] ++ suf) pre.length
        = some l.length := by
      show (pre ++ encChain (l :: rest) ++ [0] ++ suf)[pre.length]? = some l.length
      rw [hdata]
      exact getElem?_at_append _ _ _
    have hbits : ¬(get_bits l.length 6 2 = 3) := by
      rw [get_bits_lt_64 l.length (by omega)]
      omega
    have hread : readBytes (pre ++ encChain (l :: rest) ++ [0] ++ suf)
        (pre.length + 1) l.length = some l := by
      have hdata2 : pre ++ encChain (l :: rest) ++ [0] ++ suf
          = (pre ++ [l.length]) ++ (l ++ (encChain rest ++ [0] ++ suf)) := by
        rw [encChain_cons]
        simp
      have hlen : (pre ++ [l.length]).length = pre.length + 1 := by simp
      rw [hdata2, ← hlen]
      exact readBytes_append _ _ _
    simp only [List.length_cons]
    rw [decodeName_label_step _ _ _ _ (k + (rest.length + 1)) _ _ hb hbits
      (by omega) hread hlutf]
    have hpre : pre.length + 1 + l.length = (pre ++ l.length :: l).length := by
      simp
      omega
    have hdata3 : pre ++ encChain (l :: rest) ++ [0] ++ suf
        = (pre ++ l.length :: l) ++ encChain rest ++ [0] ++ suf := by
      rw [encChain_cons]
      simp
    have hfuel : k + (rest.length + 1) = k + rest.length + 1 := by omega
    rw [hpre, hdata3, hfuel,
      ih (pre ++ l.length :: l) suf last (acc ++ [l]) k
        (fun x hx => hls x (by simp [hx]))]
    have hres : (acc ++ [l]) ++ rest = acc ++ l :: rest := by simp
    have hoff : (pre ++ l.length :: l).length + (encChain rest).length + 1
        = pre.length + (encChain (l :: rest)).length + 1 := by
      rw [encChain_cons]
      simp
      omega
    rw [hres, hoff]

/-- When every lookup misses (all cached keys are longer than the suffix
being encoded) and the cursor sits at the end of the buffer,
`encodeLoop` appends exactly the uncompressed chain plus the zero byte. -/
theorem encodeLoop_plain :
    ∀ (ls : List (List Nat)) (st : DNSBuffer),
      (∀ l ∈ ls, l.length ≤ 63) →
      (∀ p ∈ st.names, ls.length < p.1.length) →
      st.offset = st.data.length →
      ∃ ns, encodeLoop st ls
          = Except.ok ⟨st.data ++ encChain ls ++ [0],
              st.offset + (encChain ls).length + 1, ns⟩ := by
  intro ls
  induction ls with
  | nil =>
    intro st _ _ hoffset
    refine ⟨st.names, ?_⟩
    simp [encodeLoop, appendRaw, writeBytes, hoffset, encChain_nil]
  | cons l rest ih =>
    intro st hlen hinv hoffset
    have hlk : lookupName st.names (l :: rest) = none :=
      lookupName_none_of_length_lt _ _ hinv
    have hl63 : l.length ≤ 63 := hlen l (by simp)
    simp only [encodeLoop, hlk, gt_iff_lt, if_neg (show ¬(63 < l.length) by omega)]
    have hst : appendWithLength { st with names := (l :: rest, st.offset) :: st.names } l
        = ⟨st.data ++ l.length :: l, st.offset + 1 + l.length,
            (l :: rest, st.offset) :: st.names⟩ := by
      simp [appendWithLength, writeBytes, hoffset]
    rw [hst]
    obtain ⟨ns, hns⟩ := ih ⟨st.data ++ l.length :: l, st.offset + 1 + l.length,
        (l :: rest, st.offset) :: st.names⟩
      (fun x hx => hlen x (by simp [hx]))
      (by
        intro p hp
        rcases List.mem_cons.mp hp with h | h
        · rw [h]
          simp
        · have := hinv p h
          simp only [List.length_cons] at this ⊢
          omega)
      (by
        simp [hoffset]
        omega)
    refine ⟨ns, ?_⟩
    rw [hns]
    have hdata : (st.data ++ l.length :: l) ++ encChain rest ++ [0]
        = st.data ++ encChain (l :: rest) ++ [0] := by
      rw [encChain_cons]
      simp
    have hoff2 : st.offset + 1 + l.length + (encChain rest).length + 1
        = st.offset + (encChain (l :: rest)).length + 1 := by
      rw [encChain_cons]
      simp
      omega
    rw [hdata, hoff2]

/-- C8: name codec round-trip.  For every label list whose labels are each
1..63 UTF-8-decodable bytes and whose total encoded length is at most 253,
`encode_name` into a fresh `DNSBuffer` succeeds, and `decode_name` of the
resulting buffer from offset 0 returns a `DNSLabel` equal to (indeed,
identical to) the original. -/
theorem c8_encode_decode_roundtrip :
    ∀ ls : List (List Nat),
      (∀ l ∈ ls, 1 ≤ l.length ∧ l.length ≤ 63 ∧ utf8Valid l = true) →
      dnsLen ls ≤ 253 →
      ∃ st : DNSBuffer,
        encode_name ⟨[], 0, []⟩ (dnsLabelOfList ls) = Except.ok st ∧
          decode_name st.data 0 (ls.length + 1)
            = some (Except.ok (dnsLabelOfList ls)) := by
  intro ls hls h253
  obtain ⟨ns, hns⟩ := encodeLoop_plain ls ⟨[], 0, []⟩ (fun l hl => (hls l hl).2.1)
    (by simp) rfl
  refine ⟨⟨encChain ls ++ [0], (encChain ls).length + 1, ns⟩, ?_, ?_⟩
  · show encode_name ⟨[], 0, []⟩ (dnsLabelOfList ls) = _
    rw [encode_name]
    rw [if_neg (show ¬(dnsLen (dnsLabelOfList ls).label > 253) by
      simp only [dnsLabelOfList]
      omega)]
    simpa using hns
  · have hdec := decodeName_plain ls [] [] none [] 0 hls
    simp only [List.nil_append, List.append_nil, List.length_nil, Nat.zero_add] at hdec
    show (decodeName (encChain ls ++ [0]) 0 none [] (ls.length + 1)).bind _ = _
    rw [hdec]
    simp [dnsLabelOfList, Except.map]

/-- C8 witness: the round-trip theorem applied to the two-label name
`aaa.bbb`. -/
theorem c8_encode_decode_roundtrip_witness :
    ∃ st : DNSBuffer,
      encode_name ⟨[], 0, []⟩ (dnsLabelOfList [[97, 97, 97], [98, 98, 98]])
          = Except.ok st ∧
        decode_name st.data 0 ([[97, 97, 97], [98, 98, 98]].length + 1)
          = some (Except.ok (dnsLabelOfList [[97, 97, 97], [98, 98, 98]])) :=
  c8_encode_decode_roundtrip [[97, 97, 97], [98, 98, 98]] (by decide) (by decide)

theorem encodeNocompressLoop_plain :
    ∀ (ls : List (List Nat)) (st : DNSBuffer),
      (∀ l ∈ ls, l.length ≤ 63) →
      st.offset = st.data.length →
      encodeNocompressLoop st ls
        = Except.ok ⟨st.data ++ encChain ls ++ [0],
            st.offset + (encChain ls).length + 1, st.names⟩ := by
  intro ls
  induction ls with
  | nil =>
    intro st _ hoffset
    simp [encodeNocompressLoop, appendRaw, writeBytes, hoffset, encChain_nil]
  | cons l rest ih =>
    intro st hlen hoffset
    have hl63 : l.length ≤ 63 := hlen l (by simp)
    simp only [encodeNocompressLoop, gt_iff_lt,
      if_neg (show ¬(63 < l.length) by omega)]
    have hst : appendWithLength st l
        = ⟨st.data ++ l.length :: l, st.offset + 1 + l.length, st.names⟩ := by
      simp [appendWithLength, writeBytes, hoffset]
    rw [hst, ih ⟨st.data ++ l.length :: l, st.offset + 1 + l.length, st.names⟩
      (fun x hx => hlen x (by simp [hx]))
      (by
        simp [hoffset]
        omega)]
    have hdata : (st.data ++ l.length :: l) ++ encChain rest ++ [0]
        = st.data ++ encChain (l :: rest) ++ [0] := by
      rw [encChain_cons]
      simp
    have hoff2 : st.offset + 1 + l.length + (encChain rest).length + 1
        = st.offset + (encChain (l :: rest)).length + 1 := by
      rw [encChain_cons]
      simp
      omega
    rw [hdata, hoff2]

/-- C9: for every `DNSBuffer` state — any compression-table contents, with
the cursor at the end of the data — and every in-bounds name,
`encode_name_nocompress` succeeds, leaves the `names` table exactly
unchanged, and appends precisely the uncompressed encoding: one
length-prefixed label per component followed by a zero byte, regardless
of what the table contains. -/
theorem c9_encode_name_nocompress_frame :
    ∀ (st : DNSBuffer) (name : DNSLabel),
      (∀ l ∈ name.label, l.length ≤ 63) →
      dnsLen name.label ≤ 253 →
      st.offset = st.data.length →
      encode_name_nocompress st name
        = Except.ok ⟨st.data ++ encChain name.label ++ [0],
            st.offset + (encChain name.label).length + 1, st.names⟩ := by
  intro st name hlen h253 hoffset
  rw [encode_name_nocompress,
    if_neg (show ¬(dnsLen name.label > 253) by omega)]
  exact encodeNocompressLoop_plain name.label st hlen hoffset

/-- C9 witness: the frame theorem on a buffer whose table already caches a
name; the appended bytes are the plain encoding and the table survives. -/
theorem c9_encode_name_nocompress_frame_witness :
    encode_name_nocompress ⟨[5, 5], 2, [([[99]], 7)]⟩ (dnsLabelOfList [[97]])
      = Except.ok ⟨[5, 5] ++ encChain [[97]] ++ [0],
          2 + (encChain [[97]]).length + 1, [([[99]], 7)]⟩ :=
  c9_encode_name_nocompress_frame ⟨[5, 5], 2, [([[99]], 7)]⟩
    (dnsLabelOfList [[97]]) (by decide) (by decide) rfl

theorem set_bits_pointer_low (ptr : Nat) :
    get_bits (set_bits ptr 3 14 2) 0 14 = ptr % 16384 := by
  apply Nat.eq_of_testBit_eq
  intro i
  have h14 : (16384 : Nat) = 2 ^ 14 := by norm_num
  have h3 : (3 : Nat) = 2 ^ 2 - 1 := by norm_num
  have h65535 : (65535 : Nat) = 2 ^ 16 - 1 := by norm_num
  simp only [get_bits, set_bits, h14, h3, h65535, Nat.one_shiftLeft,
    Nat.shiftLeft_zero, Nat.shiftRight_zero, Nat.testBit_and, Nat.testBit_or,
    Nat.testBit_xor, Nat.testBit_shiftLeft, Nat.testBit_two_pow_sub_one,
    Nat.testBit_mod_two_pow, ge_iff_le]
  rcases Nat.lt_or_ge i 14 with h | h
  · have h16 : i < 16 := by omega
    have hn : ¬(14 ≤ i) := by omega
    simp [h, h16, hn]
  · have hn : ¬(i < 14) := by omega
    simp [h, hn]

theorem set_bits_pointer_high (ptr : Nat) :
    get_bits (set_bits ptr 3 14 2) 14 2 = 3 := by
  apply Nat.eq_of_testBit_eq
  intro i
  have h3 : (3 : Nat) = 2 ^ 2 - 1 := by norm_num
  have h65535 : (65535 : Nat) = 2 ^ 16 - 1 := by norm_num
  simp only [get_bits, set_bits, h3, h65535, Nat.one_shiftLeft,
    Nat.testBit_shiftRight, Nat.testBit_and, Nat.testBit_or, Nat.testBit_xor,
    Nat.testBit_shiftLeft, Nat.testBit_two_pow_sub_one, ge_iff_le]
  rcases Nat.lt_or_ge i 2 with h | h
  · have ha : 14 ≤ 14 + i := by omega
    have hb : ¬(14 + i < 14) := by omega
    have hc : 14 + i - 14 < 2 := by omega
    have hd : ¬(14 + i < 16) → False := by omega
    have he : 14 + i < 16 := by omega
    simp [h, ha, hb, hc, he]
  · have ha : ¬(14 + i < 16) := by omega
    have hb : ¬(14 + i - 14 < 2) := by omega
    have hc : ¬(i < 2) := by omega
    simp [ha, hb, hc]

/-- C10: when `encode_name` finds the whole remaining name in the
compression table under any recorded offset `ptr` — in particular one that
is ≥ 2^14 — it raises no error and emits the 16-bit word
`set_bits ptr 3 14 2`: its low 14 bits are `ptr` reduced modulo 2^14 (the
offset is silently truncated by the `& mask`), and its high two bits are
`11`. -/
theorem c10_cached_pointer_truncated_mod_2_14 :
    ∀ (st : DNSBuffer) (name : DNSLabel) (ptr : Nat),
      name.label ≠ [] →
      dnsLen name.label ≤ 253 →
      lookupName st.names name.label = some ptr →
      encode_name st name = Except.ok (packU16 st (set_bits ptr 3 14 2)) ∧
        get_bits (set_bits ptr 3 14 2) 0 14 = ptr % 16384 ∧
        get_bits (set_bits ptr 3 14 2) 14 2 = 3 := by
  intro st name ptr hne h253 hlk
  refine ⟨?_, set_bits_pointer_low ptr, set_bits_pointer_high ptr⟩
  rw [encode_name, if_neg (show ¬(dnsLen name.label > 253) by omega)]
  rcases hlab : name.label with _ | ⟨l, rest⟩
  · exact absurd hlab hne
  · rw [hlab] at hlk
    simp only [encodeLoop, hlk]

/-- C10 witness: the theorem with a table caching the name at offset
16384; the emitted pointer word has low 14 bits 0. -/
theorem c10_cached_pointer_truncated_mod_2_14_witness :
    encode_name ⟨[], 0, [([[97]], 16384)]⟩ (dnsLabelOfList [[97]])
        = Except.ok (packU16 ⟨[], 0, [([[97]], 16384)]⟩ (set_bits 16384 3 14 2)) ∧
      get_bits (set_bits 16384 3 14 2) 0 14 = 16384 % 16384 ∧
      get_bits (set_bits 16384 3 14 2) 14 2 = 3 :=
  c10_cached_pointer_truncated_mod_2_14 ⟨[], 0, [([[97]], 16384)]⟩
    (dnsLabelOfList [[97]]) 16384 (by decide) (by decide) (by decide)

example : dnsLen [[97, 97, 97], [98, 98]] = 6 := by decide
example : get_bits 0xC3A9 0 14 = 937 := by decide
example : set_bits 0 10 3 4 = 80 := by decide
example : utf8Valid [97, 98, 99] = true := by decide
example : utf8Valid [0xC0, 0x61] = false := by decide
example : utf8Valid [0xC3, 0xA9] = true := by decide
example : decode_name [3, 97, 97, 97, 0] 0 3 =
    some (Except.ok ⟨[[97, 97, 97]]⟩) := by decide
